import Mathlib

/-!
# Verification of `chunks.c`

A C string is modelled by the list of its bytes before the terminating NUL
(each byte an `unsigned char` value, held in a `Nat`).  Reading the string at
the index of its terminator yields `0`.  The `int` variables of the program
hold values between `0` and the length of the text, which is assumed to fit in
an `int`; they are modelled by `Nat`, and differences of indices are taken in
`Int`.

The loop of `main` is modelled twice.  `driverLoop` takes the stack buffers `temp`
and `escaped` as lists without a capacity: it is the loop as the program runs it
while every trimmed split is below the 1024 bytes of `temp`.  `checkedLoop` is the
same loop with the two capacities: an iteration that writes past the end of `temp`
or of `escaped` has undefined behaviour in C, and yields `none`.  Whenever
`checkedLoop` yields lines they are the lines of `driverLoop`
(`checkedLoop_eq_some`).
-/

namespace Chunks

/-- The type of C strings: the bytes before the terminating NUL. -/
abbrev CStr := List Nat

/-- The compile-time chunk size, `#define TARGET_LEN 128`. -/
def TARGET_LEN : Nat := 128

/-- The library function `isspace` in the C locale: space, `\t`, `\n`, `\v`, `\f`, `\r`. -/
def isspace (c : Nat) : Bool :=
  c == 32 || (9 ≤ c && c ≤ 13)

/-- The byte `text[i]`; the terminating NUL when `i` is the length of the text. -/
def charAt (text : CStr) (i : Nat) : Nat :=
  text.getD i 0

/-- The library function `strlen`. -/
def strlen (text : CStr) : Nat :=
  text.length

/-- The function `escape_special_chars`: the bytes written to `dest` for the source `src`. -/
def escape_special_chars : CStr → CStr
  | [] => []
  | c :: src =>
    if c = 34 then 92 :: 34 :: escape_special_chars src
    else if c = 92 then 92 :: 92 :: escape_special_chars src
    else c :: escape_special_chars src

/-- The first loop of `find_split_point`:
`while (lower > 0 && !isspace(text[lower])) lower--;`. -/
def scanLower (text : CStr) : Nat → Nat
  | 0 => 0
  | lower + 1 =>
    if isspace (charAt text (lower + 1)) then lower + 1 else scanLower text lower

/-- The second loop of `find_split_point`:
`while (upper < len && !isspace(text[upper])) upper++;`, run for at most `fuel` steps. -/
def scanUpperFuel (text : CStr) (len : Nat) : Nat → Nat → Nat
  | 0, upper => upper
  | fuel + 1, upper =>
    if upper < len ∧ isspace (charAt text upper) = false then
      scanUpperFuel text len fuel (upper + 1)
    else upper

/-- The second loop of `find_split_point`; `len - upper` steps always reach its exit. -/
def scanUpper (text : CStr) (len upper : Nat) : Nat :=
  scanUpperFuel text len (len - upper) upper

/-- The function `find_split_point`. -/
def find_split_point (text : CStr) (target : Nat) : Nat :=
  let len := strlen text
  if len ≤ target then len
  else
    let lower := scanLower text target
    let upper := scanUpper text len target
    if ((target : Int) - lower ≤ (upper : Int) - target) ∧ lower > 0 then lower
    else if upper < len then upper
    else len

/-- The trailing-whitespace loop of `main`:
`while (split > 0 && isspace(p[split - 1])) split--;`. -/
def trimTrailing (p : CStr) : Nat → Nat
  | 0 => 0
  | split + 1 => if isspace (charAt p split) then trimTrailing p split else split + 1

/-- The flattening loop of `main`: each `\n`, `\r`, `\t` of `temp` becomes a space. -/
def flatten : CStr → CStr
  | [] => []
  | c :: temp => (if c = 10 ∨ c = 13 ∨ c = 9 then 32 else c) :: flatten temp

/-- The pointer loops `while (*start && isspace(*start)) start++;` and
`while (isspace(*p)) p++;` of `main`: the string from the first non-whitespace byte on. -/
def skipSpaces : CStr → CStr
  | [] => []
  | c :: rest => if isspace c then skipSpaces rest else c :: rest

/-- The split of an iteration of `main` before trimming:
`split = find_split_point(p, TARGET_LEN); if (split <= 0) split = strlen(p);`. -/
def splitPoint (target : Nat) (p : CStr) : Nat :=
  let split := find_split_point p target
  if split ≤ 0 then strlen p else split

/-- The string `start` of an iteration of `main` that begins with the split `split`:
trailing whitespace trimmed off the split, the bytes copied to `temp`, flattened,
leading whitespace skipped. -/
def trimmedChunk (p : CStr) (split : Nat) : CStr :=
  skipSpaces (flatten (p.take (trimTrailing p split)))

/-- The cursor after an iteration of `main` that begins with the split `split`:
`p += split; while (isspace(*p)) p++;` with the trimmed split. -/
def nextCursor (p : CStr) (split : Nat) : CStr :=
  skipSpaces (p.drop (trimTrailing p split))

/-- The loop `while (*p)` of `main`, run for at most `fuel` iterations from the cursor `p`:
the lines written to the output file, in order.  The buffers `temp` and `escaped` have no
capacity here; `checkedLoop` is the loop with `char temp[1024]` and `char escaped[2048]`. -/
def driverLoop (target : Nat) : Nat → CStr → List CStr
  | 0, _ => []
  | _ + 1, [] => []
  | fuel + 1, c :: rest =>
    let p := c :: rest
    let split := splitPoint target p
    let start := trimmedChunk p split
    if start = [] then driverLoop target fuel (nextCursor p split)
    else escape_special_chars start :: driverLoop target fuel (nextCursor p split)

/-- The lines `main` writes for the input `text` with chunk size `target`; every iteration
consumes a byte, so `strlen text` iterations reach the end of the text.  Buffers without
capacity, as in `driverLoop`; `checkedDriver` has the capacities. -/
def driver (target : Nat) (text : CStr) : List CStr :=
  driverLoop target (strlen text) text

/-- The loop of `main` with the call of `escape_special_chars` left out: the strings `start`
of the iterations that write a line, in order. -/
def startsLoop (target : Nat) : Nat → CStr → List CStr
  | 0, _ => []
  | _ + 1, [] => []
  | fuel + 1, c :: rest =>
    let p := c :: rest
    let split := splitPoint target p
    let start := trimmedChunk p split
    if start = [] then startsLoop target fuel (nextCursor p split)
    else start :: startsLoop target fuel (nextCursor p split)

/-- The trimmed, flattened candidates of the lines `main` writes for the input `text`. -/
def driverStarts (target : Nat) (text : CStr) : List CStr :=
  startsLoop target (strlen text) text

/-- The inverse pass named by the specification ("reverse the two substitutions"): one
left-to-right pass in which backslash-quote becomes a quote and backslash-backslash one
backslash.  It is not part of `chunks.c`. -/
def unescape : CStr → CStr
  | 92 :: 34 :: rest => 34 :: unescape rest
  | 92 :: 92 :: rest => 92 :: unescape rest
  | c :: rest => c :: unescape rest
  | [] => []

/-- The per-character image under escaping, as the specification words it. -/
def escapeChar (c : Nat) : CStr :=
  if c = 34 then [92, 34] else if c = 92 then [92, 92] else [c]

/-- Whether a byte is one of the two that escaping doubles. -/
def isSpecial (c : Nat) : Bool :=
  c == 34 || c == 92

/-- The boundaries of a text: the indices in `[1, len)` holding whitespace, and `len`. -/
def isBoundary (text : CStr) (i : Nat) : Prop :=
  (1 ≤ i ∧ i < strlen text ∧ isspace (charAt text i) = true) ∨ i = strlen text

/-- The pre-escape sanitizing steps of `main` applied to a whole candidate chunk `c` (the
bytes `p[0 .. split)`): trailing whitespace trimmed, flattened, leading whitespace skipped. -/
def preEscape (c : CStr) : CStr :=
  trimmedChunk c (strlen c)

/-- The cursor `p` of `main` when the loop `while (*p)` stops, or else after `fuel`
iterations from the cursor `p`. -/
def finalCursor (target : Nat) : Nat → CStr → CStr
  | 0, p => p
  | _ + 1, [] => []
  | fuel + 1, c :: rest =>
    finalCursor target fuel (nextCursor (c :: rest) (splitPoint target (c :: rest)))

/-- The cursor update as the specification words it: advance past the split point that
`find_split_point` returned, before any trimming, then skip a run of whitespace.  The
program itself advances by the trimmed split, see `nextCursor`. -/
def specNextCursor (target : Nat) (p : CStr) : CStr :=
  skipSpaces (p.drop (find_split_point p target))

/-- The number of bytes of the buffer `char temp[1024]` of `main`. -/
def TEMP_SIZE : Nat := 1024

/-- The number of bytes of the buffer `char escaped[2048]` of `main`. -/
def ESCAPED_SIZE : Nat := 2048

/-- A string with its whitespace bytes deleted. -/
def stripSpaces (l : CStr) : CStr :=
  l.filter (fun c => !isspace c)

/-- The loop `while (*p)` of `main` with the capacities of its buffers, run for at most
`fuel` iterations from the cursor `p`.  `strncpy(temp, p, split); temp[split] = 0;` writes
`split + 1` bytes into `char temp[1024]`, and `escape_special_chars(escaped, start)` writes
the escaped chunk and its terminator into `char escaped[2048]`; an iteration that writes
past the end of either buffer has undefined behaviour, and the result is `none`.
Otherwise the result is the lines written to the output file, in order. -/
def checkedLoop (target : Nat) : Nat → CStr → Option (List CStr)
  | 0, _ => some []
  | _ + 1, [] => some []
  | fuel + 1, c :: rest =>
    let p := c :: rest
    let split := splitPoint target p
    if TEMP_SIZE ≤ trimTrailing p split then none
    else
      let start := trimmedChunk p split
      if start = [] then checkedLoop target fuel (nextCursor p split)
      else if ESCAPED_SIZE ≤ (escape_special_chars start).length then none
      else (checkedLoop target fuel (nextCursor p split)).map
        (fun lines => escape_special_chars start :: lines)

/-- The run of `main` on the input `text` with chunk size `target` and the buffers of the
program: the lines written, or `none` when an iteration overruns `temp` or `escaped`. -/
def checkedDriver (target : Nat) (text : CStr) : Option (List CStr) :=
  checkedLoop target (strlen text) text

/-! ## Escaping -/

/-- The whitespace bytes are the space, tab, line feed, vertical tab, form feed and
carriage return. -/
theorem isspace_iff (c : Nat) :
    isspace c = true ↔ c = 32 ∨ c = 9 ∨ c = 10 ∨ c = 11 ∨ c = 12 ∨ c = 13 := by
  simp only [isspace, Bool.or_eq_true, beq_iff_eq, Bool.and_eq_true, decide_eq_true_eq]
  omega

theorem unescape_escape (s : CStr) : unescape (escape_special_chars s) = s := by
  induction s with
  | nil => simp [escape_special_chars, unescape]
  | cons c src ih =>
    by_cases h1 : c = 34
    · subst h1; simp [escape_special_chars, unescape, ih]
    · by_cases h2 : c = 92
      · subst h2; simp [escape_special_chars, unescape, ih]
      · simp only [escape_special_chars, h1, h2, if_false]
        rw [unescape.eq_3, ih]
        · intro rest h; simp at h; exact fun _ => h2 h
        · intro rest h; simp at h; exact fun _ => h2 h

theorem escape_eq_flatMap (s : CStr) : escape_special_chars s = s.flatMap escapeChar := by
  induction s with
  | nil => rfl
  | cons c src ih =>
    simp only [escape_special_chars, List.flatMap_cons, escapeChar, ih]
    split_ifs <;> simp

theorem escape_append (a b : CStr) :
    escape_special_chars (a ++ b) = escape_special_chars a ++ escape_special_chars b := by
  simp [escape_eq_flatMap]

theorem escape_length (s : CStr) :
    (escape_special_chars s).length = s.length + s.countP isSpecial := by
  induction s with
  | nil => rfl
  | cons c src ih =>
    by_cases h1 : c = 34
    · simp [escape_special_chars, h1, isSpecial, ih]; omega
    · by_cases h2 : c = 92
      · simp [escape_special_chars, h2, isSpecial, ih]; omega
      · simp [escape_special_chars, h1, h2, isSpecial, ih]; omega

/-! ## The two scans of `find_split_point` -/

theorem scanLower_le (text : CStr) (t : Nat) : scanLower text t ≤ t := by
  induction t with
  | zero => simp [scanLower]
  | succ n ih =>
    unfold scanLower
    split_ifs
    · exact le_rfl
    · exact Nat.le_succ_of_le ih

theorem scanLower_space (text : CStr) (t : Nat) (h : 0 < scanLower text t) :
    isspace (charAt text (scanLower text t)) = true := by
  induction t with
  | zero => simp [scanLower] at h
  | succ n ih =>
    unfold scanLower at h ⊢
    split_ifs at h ⊢ with hs
    · exact hs
    · exact ih h

theorem scanLower_skipped (text : CStr) (t i : Nat) (h1 : scanLower text t < i) (h2 : i ≤ t) :
    isspace (charAt text i) = false := by
  induction t with
  | zero => omega
  | succ n ih =>
    unfold scanLower at h1
    split_ifs at h1 with hs
    · omega
    · rcases Nat.eq_or_lt_of_le h2 with h | h
      · subst h; simpa using hs
      · exact ih h1 (by omega)

theorem scanUpperFuel_ge (text : CStr) (len fuel upper : Nat) :
    upper ≤ scanUpperFuel text len fuel upper := by
  induction fuel generalizing upper with
  | zero => simp [scanUpperFuel]
  | succ n ih =>
    unfold scanUpperFuel
    split_ifs
    · exact le_trans (Nat.le_succ upper) (ih (upper + 1))
    · exact le_rfl

theorem scanUpperFuel_le (text : CStr) (len fuel upper : Nat) (h : upper ≤ len) :
    scanUpperFuel text len fuel upper ≤ len := by
  induction fuel generalizing upper with
  | zero => simpa [scanUpperFuel] using h
  | succ n ih =>
    unfold scanUpperFuel
    split_ifs with hc
    · exact ih (upper + 1) hc.1
    · exact h

/-- With `len - upper` steps of fuel the scan stops at the exit of the loop, not for lack
of fuel. -/
theorem scanUpperFuel_exit (text : CStr) (len fuel upper : Nat) (hf : len - upper ≤ fuel)
    (h : scanUpperFuel text len fuel upper < len) :
    isspace (charAt text (scanUpperFuel text len fuel upper)) = true := by
  induction fuel generalizing upper with
  | zero =>
    simp only [scanUpperFuel] at h
    omega
  | succ n ih =>
    unfold scanUpperFuel at h ⊢
    split_ifs at h ⊢ with hc
    · exact ih (upper + 1) (by omega) h
    · by_contra hs
      exact hc ⟨h, by simpa using hs⟩

theorem scanUpperFuel_skipped (text : CStr) (len fuel upper i : Nat) (h1 : upper ≤ i)
    (h2 : i < scanUpperFuel text len fuel upper) : isspace (charAt text i) = false := by
  induction fuel generalizing upper with
  | zero =>
    simp only [scanUpperFuel] at h2
    omega
  | succ n ih =>
    unfold scanUpperFuel at h2
    split_ifs at h2 with hc
    · rcases Nat.eq_or_lt_of_le h1 with h | h
      · subst h; exact hc.2
      · exact ih (upper + 1) h h2
    · omega

/-- More fuel than `len - upper` does not change the result of the scan. -/
theorem scanUpperFuel_stable (text : CStr) (len fuel upper : Nat) (hf : len - upper ≤ fuel) :
    scanUpperFuel text len fuel upper = scanUpper text len upper := by
  unfold scanUpper
  induction fuel generalizing upper with
  | zero =>
    have h0 : len - upper = 0 := by omega
    rw [h0]
  | succ n ih =>
    by_cases hc : upper < len ∧ isspace (charAt text upper) = false
    · obtain ⟨k, hk⟩ : ∃ k, len - upper = k + 1 := ⟨len - upper - 1, by omega⟩
      rw [hk]
      simp only [scanUpperFuel, hc, and_self, if_true]
      rw [ih (upper + 1) (by omega)]
      have hk2 : len - (upper + 1) = k := by omega
      rw [hk2]
    · cases hl : len - upper with
      | zero => simp [scanUpperFuel, hc]
      | succ k => simp [scanUpperFuel, hc]

theorem scanUpper_ge (text : CStr) (len upper : Nat) : upper ≤ scanUpper text len upper :=
  scanUpperFuel_ge text len _ upper

theorem scanUpper_le (text : CStr) (len upper : Nat) (h : upper ≤ len) :
    scanUpper text len upper ≤ len :=
  scanUpperFuel_le text len _ upper h

theorem scanUpper_space (text : CStr) (len upper : Nat) (h : scanUpper text len upper < len) :
    isspace (charAt text (scanUpper text len upper)) = true :=
  scanUpperFuel_exit text len _ upper le_rfl h

theorem scanUpper_skipped (text : CStr) (len upper i : Nat) (h1 : upper ≤ i)
    (h2 : i < scanUpper text len upper) : isspace (charAt text i) = false :=
  scanUpperFuel_skipped text len _ upper i h1 h2

/-! ## The split point -/

/-- Every boundary lies at or below the lower scan result, or at or above the upper one. -/
theorem boundary_outside (text : CStr) (target b : Nat) (h2 : target < strlen text)
    (hb : isBoundary text b) :
    (1 ≤ b ∧ b ≤ scanLower text target) ∨ scanUpper text (strlen text) target ≤ b := by
  rcases hb with ⟨hb1, hb2, hb3⟩ | hb
  · by_cases hle : b ≤ target
    · left
      refine ⟨hb1, ?_⟩
      by_contra hlt
      have := scanLower_skipped text target b (by omega) hle
      simp [hb3] at this
    · right
      by_contra hlt
      have := scanUpper_skipped text (strlen text) target b (by omega) (by omega)
      simp [hb3] at this
  · right
    subst hb
    exact scanUpper_le text _ target (le_of_lt h2)

/-- C1: for a text of length `len` and a target with `1 ≤ target < len`, the result of
`find_split_point` is a boundary (an index in `[1, len)` holding whitespace, or `len`), no
boundary is nearer to the target, and a boundary equally near is not below it. -/
theorem find_split_point_nearest (text : CStr) (target : Nat)
    (h1 : 1 ≤ target) (h2 : target < strlen text) :
    isBoundary text (find_split_point text target) ∧
    (∀ b, isBoundary text b →
      |(find_split_point text target : Int) - target| ≤ |(b : Int) - target|) ∧
    (∀ b, isBoundary text b →
      |(b : Int) - target| = |(find_split_point text target : Int) - target| →
      find_split_point text target ≤ b) := by
  have hlo := scanLower_le text target
  have hlosp := scanLower_space text target
  have hup := scanUpper_ge text (strlen text) target
  have hup2 := scanUpper_le text (strlen text) target (le_of_lt h2)
  have hupsp := scanUpper_space text (strlen text) target
  have hout := fun b => boundary_outside text target b h2
  have hnot : ¬ strlen text ≤ target := by omega
  simp only [find_split_point, hnot, if_false]
  split_ifs with hc hd
  · refine ⟨Or.inl ⟨hc.2, by omega, hlosp hc.2⟩, ?_, ?_⟩
    · intro b hb
      have := hout b hb
      rcases abs_cases ((scanLower text target : Int) - target) with ⟨e1, _⟩ | ⟨e1, _⟩ <;>
      rcases abs_cases ((b : Int) - target) with ⟨e2, _⟩ | ⟨e2, _⟩ <;> omega
    · intro b hb
      have := hout b hb
      rcases abs_cases ((scanLower text target : Int) - target) with ⟨e1, _⟩ | ⟨e1, _⟩ <;>
      rcases abs_cases ((b : Int) - target) with ⟨e2, _⟩ | ⟨e2, _⟩ <;> omega
  · refine ⟨Or.inl ⟨by omega, hd, hupsp hd⟩, ?_, ?_⟩
    · intro b hb
      have := hout b hb
      rcases abs_cases ((scanUpper text (strlen text) target : Int) - target)
        with ⟨e1, _⟩ | ⟨e1, _⟩ <;>
      rcases abs_cases ((b : Int) - target) with ⟨e2, _⟩ | ⟨e2, _⟩ <;> omega
    · intro b hb
      have := hout b hb
      rcases abs_cases ((scanUpper text (strlen text) target : Int) - target)
        with ⟨e1, _⟩ | ⟨e1, _⟩ <;>
      rcases abs_cases ((b : Int) - target) with ⟨e2, _⟩ | ⟨e2, _⟩ <;> omega
  · have hul : scanUpper text (strlen text) target = strlen text := by omega
    refine ⟨Or.inr rfl, ?_, ?_⟩
    · intro b hb
      have := hout b hb
      rcases abs_cases ((strlen text : Int) - target) with ⟨e1, _⟩ | ⟨e1, _⟩ <;>
      rcases abs_cases ((b : Int) - target) with ⟨e2, _⟩ | ⟨e2, _⟩ <;> omega
    · intro b hb
      have := hout b hb
      rcases abs_cases ((strlen text : Int) - target) with ⟨e1, _⟩ | ⟨e1, _⟩ <;>
      rcases abs_cases ((b : Int) - target) with ⟨e2, _⟩ | ⟨e2, _⟩ <;> omega

/-- C1 at the text `he loo world` with target 4: the boundaries are 2, 6 and 12, both
whitespace boundaries are at distance 2, and the lower one is returned. -/
theorem find_split_point_nearest_witness :
    (1 ≤ 4 ∧ 4 < strlen [104, 101, 32, 108, 111, 111, 32, 119, 111, 114, 108, 100]) ∧
    find_split_point [104, 101, 32, 108, 111, 111, 32, 119, 111, 114, 108, 100] 4 = 2 ∧
    isBoundary [104, 101, 32, 108, 111, 111, 32, 119, 111, 114, 108, 100]
      (find_split_point [104, 101, 32, 108, 111, 111, 32, 119, 111, 114, 108, 100] 4) :=
  ⟨by decide, by decide,
    (find_split_point_nearest [104, 101, 32, 108, 111, 111, 32, 119, 111, 114, 108, 100] 4
      (by decide) (by decide)).1⟩

/-- C2: for every text and every target, the result of `find_split_point` is the length
of the text or an index holding a whitespace byte; so it never has a non-whitespace byte
of the text on both sides. -/
theorem find_split_point_not_in_word (text : CStr) (target : Nat) :
    (find_split_point text target = strlen text ∨
      (find_split_point text target < strlen text ∧
        isspace (charAt text (find_split_point text target)) = true)) ∧
    ¬ (1 ≤ find_split_point text target ∧ find_split_point text target < strlen text ∧
        isspace (charAt text (find_split_point text target - 1)) = false ∧
        isspace (charAt text (find_split_point text target)) = false) := by
  have key : find_split_point text target = strlen text ∨
      (find_split_point text target < strlen text ∧
        isspace (charAt text (find_split_point text target)) = true) := by
    by_cases hlen : strlen text ≤ target
    · left; simp [find_split_point, hlen]
    · have hlo := scanLower_le text target
      have hlosp := scanLower_space text target
      have hupsp := scanUpper_space text (strlen text) target
      simp only [find_split_point, hlen, if_false]
      split_ifs with hc hd
      · right; exact ⟨by omega, hlosp hc.2⟩
      · right; exact ⟨hd, hupsp hd⟩
      · left; rfl
  refine ⟨key, ?_⟩
  rintro ⟨_, h2, _, h4⟩
  rcases key with h | ⟨_, h⟩
  · omega
  · rw [h] at h4; exact Bool.noConfusion h4

/-- C3: when the text is no longer than the target, `find_split_point` returns the length
of the text. -/
theorem find_split_point_short (text : CStr) (target : Nat) (h : strlen text ≤ target) :
    find_split_point text target = strlen text := by
  simp [find_split_point, h]

/-- C3 at the text `hi there` with target 8, the length of the text. -/
theorem find_split_point_short_witness :
    strlen [104, 105, 32, 116, 104, 101, 114, 101] ≤ 8 ∧
    find_split_point [104, 105, 32, 116, 104, 101, 114, 101] 8 =
      strlen [104, 105, 32, 116, 104, 101, 114, 101] :=
  ⟨by decide, find_split_point_short [104, 105, 32, 116, 104, 101, 114, 101] 8 (by decide)⟩

/-- C4 fails as stated: on the two-byte text made of a space and `a`, with target 0,
`find_split_point` returns 0, which is below 1. -/
theorem find_split_point_zero_counterexample :
    0 < strlen [32, 97] ∧
    ¬ (1 ≤ find_split_point [32, 97] 0 ∧ find_split_point [32, 97] 0 ≤ strlen [32, 97]) := by
  decide

/-- C4, amended: for every non-empty text and every target, the result of
`find_split_point` is at most the length of the text, and it is 0 exactly when the target
is 0 and the text begins with a whitespace byte; in every other case it is at least 1. -/
theorem find_split_point_range (text : CStr) (target : Nat) (h : 0 < strlen text) :
    find_split_point text target ≤ strlen text ∧
    (find_split_point text target = 0 ↔ target = 0 ∧ isspace (charAt text 0) = true) := by
  by_cases hlen : strlen text ≤ target
  · simp only [find_split_point, hlen, if_true]
    exact ⟨le_rfl, by omega⟩
  · have hlo := scanLower_le text target
    have hup := scanUpper_ge text (strlen text) target
    have hup2 := scanUpper_le text (strlen text) target (by omega)
    have hupsp := scanUpper_space text (strlen text) target
    have hskip := scanUpper_skipped text (strlen text) target
    simp only [find_split_point, hlen, if_false]
    split_ifs with hc hd
    · refine ⟨by omega, ⟨fun h0 => by omega, fun h0 => by omega⟩⟩
    · refine ⟨by omega, ⟨fun h0 => ?_, fun h0 => ?_⟩⟩
      · refine ⟨by omega, ?_⟩
        have := hupsp hd
        rwa [h0] at this
      · by_contra hne
        have := hskip 0 (by omega) (by omega)
        rw [h0.2] at this
        exact Bool.noConfusion this
    · refine ⟨le_rfl, ⟨fun h0 => by omega, fun h0 => ?_⟩⟩
      exfalso
      have := hskip 0 (by omega) (by omega)
      rw [h0.2] at this
      exact Bool.noConfusion this

/-- C4, amended, at the text `a b` with target 0: the result is 1. -/
theorem find_split_point_range_witness :
    0 < strlen [97, 32, 98] ∧ find_split_point [97, 32, 98] 0 = 1 ∧
    find_split_point [97, 32, 98] 0 ≤ strlen [97, 32, 98] :=
  ⟨by decide, by decide, (find_split_point_range [97, 32, 98] 0 (by decide)).1⟩

/-! ## The driver loop: fuel -/

theorem skipSpaces_length_le (l : CStr) : (skipSpaces l).length ≤ l.length := by
  induction l with
  | nil => simp [skipSpaces]
  | cons c rest ih =>
    unfold skipSpaces
    split_ifs
    · exact Nat.le_succ_of_le ih
    · exact le_rfl

theorem trimTrailing_le (p : CStr) (split : Nat) : trimTrailing p split ≤ split := by
  induction split with
  | zero => simp [trimTrailing]
  | succ n ih =>
    unfold trimTrailing
    split_ifs
    · exact Nat.le_succ_of_le ih
    · exact le_rfl

/-- The trimming loop stops below a non-whitespace byte. -/
theorem trimTrailing_stop (p : CStr) (split : Nat) (h : 0 < trimTrailing p split) :
    isspace (charAt p (trimTrailing p split - 1)) = false := by
  induction split with
  | zero => simp [trimTrailing] at h
  | succ n ih =>
    unfold trimTrailing at h ⊢
    split_ifs at h ⊢ with hs
    · exact ih h
    · simpa using hs

/-- The trimming loop reaches 0 only over whitespace. -/
theorem trimTrailing_zero (p : CStr) (split : Nat) (h : trimTrailing p split = 0)
    (hs : 0 < split) : isspace (charAt p 0) = true := by
  induction split with
  | zero => omega
  | succ n ih =>
    unfold trimTrailing at h
    split_ifs at h with hc
    · rcases Nat.eq_zero_or_pos n with h0 | h0
      · subst h0; exact hc
      · exact ih h h0

theorem find_split_point_le (text : CStr) (target : Nat) :
    find_split_point text target ≤ strlen text := by
  by_cases hlen : strlen text ≤ target
  · simp [find_split_point, hlen]
  · have hlo := scanLower_le text target
    simp only [find_split_point, hlen, if_false]
    split_ifs with hc hd <;> omega

theorem splitPoint_le (target : Nat) (p : CStr) : splitPoint target p ≤ strlen p := by
  have := find_split_point_le p target
  unfold splitPoint
  simp only
  split_ifs <;> omega

theorem splitPoint_pos (target : Nat) (p : CStr) (hp : p ≠ []) : 1 ≤ splitPoint target p := by
  have hl : 0 < strlen p := List.length_pos.mpr hp
  unfold splitPoint
  simp only
  split_ifs <;> omega

/-- An iteration that starts with a split of at least 1 consumes at least one byte. -/
theorem nextCursor_length_lt (p : CStr) (split : Nat) (hp : p ≠ []) (hs : 1 ≤ split) :
    (nextCursor p split).length < p.length := by
  unfold nextCursor
  rcases Nat.eq_zero_or_pos (trimTrailing p split) with h0 | h0
  · have hsp := trimTrailing_zero p split h0 hs
    rw [h0]
    cases p with
    | nil => exact absurd rfl hp
    | cons c rest =>
      have hc : isspace c = true := by simpa [charAt] using hsp
      have := skipSpaces_length_le rest
      simp only [List.drop_zero, skipSpaces, hc, if_true, List.length_cons]
      omega
  · have h1 := skipSpaces_length_le (p.drop (trimTrailing p split))
    have h2 : 0 < p.length := List.length_pos.mpr hp
    rw [List.length_drop] at h1
    omega

/-- Fuel beyond the length of the remaining text is never used: the loop reaches the end
of the text first. -/
theorem driverLoop_fuel (target : Nat) (n m : Nat) (p : CStr) (hn : p.length ≤ n)
    (hm : p.length ≤ m) : driverLoop target n p = driverLoop target m p := by
  induction n generalizing m p with
  | zero =>
    have hp : p = [] := List.length_eq_zero.mp (by omega)
    subst hp
    cases m <;> rfl
  | succ n ih =>
    cases p with
    | nil => cases m <;> rfl
    | cons c rest =>
      cases m with
      | zero => simp at hm
      | succ m =>
        have hlt := nextCursor_length_lt (c :: rest) (splitPoint target (c :: rest))
          (List.cons_ne_nil c rest) (splitPoint_pos target _ (List.cons_ne_nil c rest))
        have e := ih m (nextCursor (c :: rest) (splitPoint target (c :: rest)))
          (by omega) (by omega)
        simp only [driverLoop, e]

theorem driverLoop_eq_map (target fuel : Nat) (p : CStr) :
    driverLoop target fuel p = (startsLoop target fuel p).map escape_special_chars := by
  induction fuel generalizing p with
  | zero => rfl
  | succ n ih =>
    cases p with
    | nil => rfl
    | cons c rest =>
      simp only [driverLoop, startsLoop]
      split_ifs
      · exact ih _
      · rw [List.map_cons, ih]

/-- Every string of `startsLoop` is the non-empty `start` of an iteration whose split is
within the remaining text. -/
theorem startsLoop_mem (target fuel : Nat) (p : CStr) (t : CStr)
    (h : t ∈ startsLoop target fuel p) :
    ∃ q split, split ≤ strlen q ∧ t = trimmedChunk q split ∧ t ≠ [] := by
  induction fuel generalizing p with
  | zero => simp [startsLoop] at h
  | succ n ih =>
    cases p with
    | nil => simp [startsLoop] at h
    | cons c rest =>
      simp only [startsLoop] at h
      split_ifs at h with he
      · exact ih _ h
      · rcases List.mem_cons.mp h with h | h
        · exact ⟨c :: rest, splitPoint target (c :: rest), splitPoint_le target _, h,
            by rw [h]; exact he⟩
        · exact ih _ h

/-- Every line of the driver is the escaped form of a non-empty `start`. -/
theorem driver_mem (target : Nat) (text line : CStr) (h : line ∈ driver target text) :
    ∃ q split, split ≤ strlen q ∧ trimmedChunk q split ≠ [] ∧
      line = escape_special_chars (trimmedChunk q split) := by
  unfold driver at h
  rw [driverLoop_eq_map] at h
  obtain ⟨t, ht, rfl⟩ := List.mem_map.mp h
  obtain ⟨q, split, h1, h2, h3⟩ := startsLoop_mem target _ text t ht
  exact ⟨q, split, h1, h2 ▸ h3, by rw [h2]⟩

/-! ## Sanitizing -/

theorem flatten_eq_map (l : CStr) :
    flatten l = l.map (fun c => if c = 10 ∨ c = 13 ∨ c = 9 then 32 else c) := by
  induction l with
  | nil => rfl
  | cons c rest ih => simp [flatten, ih]

theorem flattenChar_isspace (c : Nat) :
    isspace (if c = 10 ∨ c = 13 ∨ c = 9 then 32 else c) = isspace c := by
  split_ifs with h
  · rcases h with h | h | h <;> subst h <;> decide
  · rfl

theorem flatten_mem (l : CStr) (c : Nat) (h : c ∈ flatten l) : c ≠ 10 ∧ c ≠ 13 ∧ c ≠ 9 := by
  rw [flatten_eq_map] at h
  obtain ⟨d, _, hd⟩ := List.mem_map.mp h
  split_ifs at hd with hc
  · subst hd; decide
  · subst hd
    exact ⟨fun e => hc (Or.inl e), fun e => hc (Or.inr (Or.inl e)),
      fun e => hc (Or.inr (Or.inr e))⟩

/-- Flattening changes nothing in a string without `\n`, `\r`, `\t`. -/
theorem flatten_id (l : CStr) (h : ∀ c ∈ l, c ≠ 10 ∧ c ≠ 13 ∧ c ≠ 9) : flatten l = l := by
  induction l with
  | nil => rfl
  | cons c rest ih =>
    have hc := h c (List.mem_cons_self c rest)
    have hr := ih (fun d hd => h d (List.mem_cons_of_mem c hd))
    simp [flatten, hc.1, hc.2.1, hc.2.2, hr]

theorem skipSpaces_suffix (l : CStr) : ∃ a, l = a ++ skipSpaces l := by
  induction l with
  | nil => exact ⟨[], rfl⟩
  | cons c rest ih =>
    unfold skipSpaces
    split_ifs
    · obtain ⟨a, ha⟩ := ih
      exact ⟨c :: a, by rw [List.cons_append, ← ha]⟩
    · exact ⟨[], rfl⟩

theorem skipSpaces_mem (l : CStr) (c : Nat) (h : c ∈ skipSpaces l) : c ∈ l := by
  obtain ⟨a, ha⟩ := skipSpaces_suffix l
  rw [ha]
  exact List.mem_append_right a h

theorem skipSpaces_head (l : CStr) (c : Nat) (h : (skipSpaces l).head? = some c) :
    isspace c = false := by
  induction l with
  | nil => simp [skipSpaces] at h
  | cons d rest ih =>
    unfold skipSpaces at h
    split_ifs at h with hd
    · exact ih h
    · simp only [List.head?_cons, Option.some.injEq] at h
      subst h
      simpa using hd

/-- Skipping whitespace changes nothing in a string that begins with another byte. -/
theorem skipSpaces_id (l : CStr) (h : ∀ c, l.head? = some c → isspace c = false) :
    skipSpaces l = l := by
  cases l with
  | nil => rfl
  | cons c rest =>
    have hc := h c rfl
    simp [skipSpaces, hc]

theorem skipSpaces_getLast (l : CStr) (h : skipSpaces l ≠ []) :
    (skipSpaces l).getLast? = l.getLast? := by
  obtain ⟨a, ha⟩ := skipSpaces_suffix l
  conv_rhs => rw [ha]
  rw [List.getLast?_append_of_ne_nil a h]

theorem take_getLast (p : CStr) (k : Nat) (h0 : 0 < k) (hk : k ≤ p.length) :
    (p.take k).getLast? = some (charAt p (k - 1)) := by
  have hlt : k - 1 < p.length := by omega
  rw [List.getLast?_take, if_neg (by omega), List.getElem?_eq_getElem hlt]
  simp [charAt, List.getElem?_eq_getElem hlt]

/-- The string `start` of an iteration does not end with whitespace. -/
theorem trimmedChunk_getLast (p : CStr) (split c : Nat) (hs : split ≤ strlen p)
    (h : (trimmedChunk p split).getLast? = some c) : isspace c = false := by
  unfold trimmedChunk at h
  have hne : skipSpaces (flatten (p.take (trimTrailing p split))) ≠ [] := by
    intro e; rw [e] at h; simp at h
  rw [skipSpaces_getLast _ hne, flatten_eq_map, List.getLast?_map] at h
  have hk : 0 < trimTrailing p split := by
    rcases Nat.eq_zero_or_pos (trimTrailing p split) with h0 | h0
    · rw [h0] at hne; simp [flatten, skipSpaces] at hne
    · exact h0
  have hle := trimTrailing_le p split
  rw [take_getLast p _ hk (by unfold strlen at hs; omega)] at h
  simp only [Option.map_some', Option.some.injEq] at h
  rw [← h, flattenChar_isspace]
  exact trimTrailing_stop p split hk

theorem trimmedChunk_head (p : CStr) (split c : Nat)
    (h : (trimmedChunk p split).head? = some c) : isspace c = false :=
  skipSpaces_head _ c h

theorem trimmedChunk_mem (p : CStr) (split c : Nat) (h : c ∈ trimmedChunk p split) :
    c ≠ 10 ∧ c ≠ 13 ∧ c ≠ 9 :=
  flatten_mem _ c (skipSpaces_mem _ c h)

/-- The trimming loop removes nothing from a string that does not end with whitespace. -/
theorem trimTrailing_id (l : CStr) (h : ∀ c, l.getLast? = some c → isspace c = false) :
    trimTrailing l (strlen l) = strlen l := by
  unfold strlen
  cases hl : l.length with
  | zero => rfl
  | succ n =>
    have hlast := take_getLast l (n + 1) (by omega) (by omega)
    rw [List.take_of_length_le (by omega)] at hlast
    have := h _ hlast
    simp only [Nat.add_sub_cancel] at this
    simp [trimTrailing, this]

theorem mem_escape (s : CStr) (c : Nat) (h : c ∈ escape_special_chars s) : c ∈ s ∨ c = 92 := by
  rw [escape_eq_flatMap] at h
  obtain ⟨d, hd, hc⟩ := List.mem_flatMap.mp h
  unfold escapeChar at hc
  split_ifs at hc with h1 h2
  · simp only [List.mem_cons, List.mem_singleton, List.not_mem_nil, or_false] at hc
    rcases hc with hc | hc
    · exact Or.inr hc
    · left; rw [hc, ← h1]; exact hd
  · simp only [List.mem_cons, List.mem_singleton, List.not_mem_nil, or_false, or_self] at hc
    exact Or.inr hc
  · simp only [List.mem_singleton] at hc
    left; rw [hc]; exact hd

theorem escape_ne_nil (s : CStr) (h : s ≠ []) : escape_special_chars s ≠ [] := by
  cases s with
  | nil => exact absurd rfl h
  | cons c rest =>
    unfold escape_special_chars
    split_ifs <;> simp

theorem escape_head (s : CStr) (h : ∀ d, s.head? = some d → isspace d = false) (c : Nat)
    (hc : (escape_special_chars s).head? = some c) : isspace c = false := by
  cases s with
  | nil => simp [escape_special_chars] at hc
  | cons d rest =>
    have hd := h d rfl
    unfold escape_special_chars at hc
    split_ifs at hc
    · simp only [List.head?_cons, Option.some.injEq] at hc; subst hc; decide
    · simp only [List.head?_cons, Option.some.injEq] at hc; subst hc; decide
    · simp only [List.head?_cons, Option.some.injEq] at hc; subst hc; exact hd

theorem escape_getLast (s : CStr) (h : ∀ d, s.getLast? = some d → isspace d = false) (c : Nat)
    (hc : (escape_special_chars s).getLast? = some c) : isspace c = false := by
  rcases List.eq_nil_or_concat s with hs | ⟨init, d, hs⟩
  · subst hs; simp [escape_special_chars] at hc
  · rw [List.concat_eq_append] at hs
    subst hs
    have hd := h d (List.getLast?_concat init)
    rw [escape_append] at hc
    have hne : escape_special_chars [d] ≠ [] := escape_ne_nil _ (by simp)
    rw [List.getLast?_append_of_ne_nil _ hne] at hc
    simp only [escape_special_chars] at hc
    split_ifs at hc
    · simp at hc; subst hc; decide
    · simp at hc; subst hc; decide
    · simp at hc; subst hc; exact hd

theorem trimTrailing_congr (p q : CStr) (split : Nat)
    (h : ∀ i, i < split → charAt p i = charAt q i) :
    trimTrailing p split = trimTrailing q split := by
  induction split with
  | zero => rfl
  | succ n ih =>
    have e := h n (Nat.lt_succ_self n)
    have r := ih (fun i hi => h i (Nat.lt_succ_of_lt hi))
    simp only [trimTrailing, e, r]

/-- The string `start` of an iteration depends only on the candidate `p[0 .. split)`: it is
the result of the pre-escape steps on the candidate. -/
theorem trimmedChunk_eq_preEscape (p : CStr) (split : Nat) (hs : split ≤ strlen p) :
    trimmedChunk p split = preEscape (p.take split) := by
  unfold strlen at hs
  have hlen : (p.take split).length = split := by simp [List.length_take, hs]
  have hc : trimTrailing p split = trimTrailing (p.take split) split := by
    apply trimTrailing_congr
    intro i hi
    simp [charAt, List.getElem?_take_of_lt hi]
  have hle := trimTrailing_le (p.take split) split
  unfold preEscape trimmedChunk strlen
  rw [hlen, hc, List.take_take, Nat.min_eq_left hle]

theorem trimmedChunk_fixed (p : CStr) (split : Nat) (hs : split ≤ strlen p) :
    preEscape (trimmedChunk p split) = trimmedChunk p split := by
  have h1 := trimmedChunk_getLast p split
  have h2 := trimmedChunk_head p split
  have h3 := trimmedChunk_mem p split
  generalize trimmedChunk p split = u at h1 h2 h3
  unfold preEscape trimmedChunk
  rw [trimTrailing_id u (fun c hc => h1 c hs hc)]
  unfold strlen
  rw [List.take_length, flatten_id u h3, skipSpaces_id u h2]

/-! ## The claims on escaping and sanitizing -/

/-- C5: unescaping the escaped form of any string gives the string back, and unescaping
the lines the driver writes gives, in order, the trimmed and flattened candidates of the
iterations that wrote them. -/
theorem escape_round_trip (s : CStr) (target : Nat) (text : CStr) :
    unescape (escape_special_chars s) = s ∧
    (driver target text).map unescape = driverStarts target text := by
  refine ⟨unescape_escape s, ?_⟩
  unfold driver driverStarts
  rw [driverLoop_eq_map, List.map_map]
  have hid : unescape ∘ escape_special_chars = id := funext unescape_escape
  rw [hid, List.map_id]

/-- C6: `escape_special_chars` maps each byte of its source, in order, to its own image
(a quote to backslash-quote, a backslash to two backslashes, any other byte to itself) and
concatenates the images; so it distributes over concatenation. -/
theorem escape_per_character (s a b : CStr) :
    escape_special_chars s = s.flatMap escapeChar ∧
    escape_special_chars (a ++ b) = escape_special_chars a ++ escape_special_chars b :=
  ⟨escape_eq_flatMap s, escape_append a b⟩

/-- C7: the escaped form of `s` is longer than `s` by the number of quotes and backslashes
of `s`; so its length lies between that of `s` and twice that of `s`, and it is twice that
of `s` exactly when every byte of `s` is a quote or a backslash. -/
theorem escape_capacity (s : CStr) :
    (escape_special_chars s).length = s.length + s.countP isSpecial ∧
    s.length ≤ (escape_special_chars s).length ∧
    (escape_special_chars s).length ≤ 2 * s.length ∧
    ((escape_special_chars s).length = 2 * s.length ↔ ∀ c ∈ s, c = 34 ∨ c = 92) := by
  have hlen := escape_length s
  have hle : s.countP isSpecial ≤ s.length := List.countP_le_length isSpecial
  refine ⟨hlen, by omega, by omega, ?_⟩
  have hall : s.countP isSpecial = s.length ↔ ∀ c ∈ s, c = 34 ∨ c = 92 := by
    rw [List.countP_eq_length]
    simp [isSpecial]
  rw [← hall]
  omega

/-- C8: no line the driver writes holds a line feed, a carriage return or a tab; the same
holds for the escaped form of the `start` of any candidate. -/
theorem sanitize_no_control (target : Nat) (text p : CStr) (split : Nat) :
    (∀ line ∈ driver target text, 10 ∉ line ∧ 13 ∉ line ∧ 9 ∉ line) ∧
    (10 ∉ escape_special_chars (trimmedChunk p split) ∧
      13 ∉ escape_special_chars (trimmedChunk p split) ∧
      9 ∉ escape_special_chars (trimmedChunk p split)) := by
  have key : ∀ (q : CStr) (k c : Nat), c ∈ escape_special_chars (trimmedChunk q k) →
      c ≠ 10 ∧ c ≠ 13 ∧ c ≠ 9 := by
    intro q k c hc
    rcases mem_escape _ c hc with h | h
    · exact trimmedChunk_mem q k c h
    · subst h; decide
  constructor
  · intro line hline
    obtain ⟨q, k, _, _, rfl⟩ := driver_mem target text line hline
    exact ⟨fun h => (key q k 10 h).1 rfl, fun h => (key q k 13 h).2.1 rfl,
      fun h => (key q k 9 h).2.2 rfl⟩
  · exact ⟨fun h => (key p split 10 h).1 rfl, fun h => (key p split 13 h).2.1 rfl,
      fun h => (key p split 9 h).2.2 rfl⟩

/-- C8 on the text `a<TAB>b<LF>c d<CR>` with target 3: the driver writes the lines `a b`
and `c d`. -/
theorem sanitize_no_control_witness :
    driver 3 [97, 9, 98, 10, 99, 32, 100, 13] = [[97, 32, 98], [99, 32, 100]] ∧
    (10 ∉ [97, 32, 98] ∧ 13 ∉ [97, 32, 98] ∧ 9 ∉ [97, 32, 98]) :=
  ⟨by decide,
    (sanitize_no_control 3 [97, 9, 98, 10, 99, 32, 100, 13] [] 0).1 [97, 32, 98] (by decide)⟩

/-- C9: the pre-escape sanitizing steps are idempotent on every candidate; the `start` of
every iteration, and so every candidate the driver escapes, is left unchanged by them. -/
theorem trim_idempotent (c : CStr) (target : Nat) (text p : CStr) (split : Nat) :
    preEscape (preEscape c) = preEscape c ∧
    (split ≤ strlen p → preEscape (trimmedChunk p split) = trimmedChunk p split) ∧
    (∀ t ∈ driverStarts target text, preEscape t = t) := by
  refine ⟨trimmedChunk_fixed c (strlen c) le_rfl, trimmedChunk_fixed p split, ?_⟩
  intro t ht
  obtain ⟨q, k, hk, rfl, _⟩ := startsLoop_mem target _ text t ht
  exact trimmedChunk_fixed q k hk

/-- C9 on the candidate ` a<TAB>b<LF> `: the steps give `a b`, and give `a b` again from
that. -/
theorem trim_idempotent_witness :
    preEscape [32, 97, 9, 98, 10, 32] = [97, 32, 98] ∧
    preEscape (preEscape [32, 97, 9, 98, 10, 32]) = preEscape [32, 97, 9, 98, 10, 32] :=
  ⟨by decide, (trim_idempotent [32, 97, 9, 98, 10, 32] 0 [] [] 0).1⟩

/-- C10: every line the driver writes is non-empty, and neither its first nor its last
byte is a whitespace byte. -/
theorem driver_lines_trimmed (target : Nat) (text line : CStr)
    (h : line ∈ driver target text) :
    line ≠ [] ∧ (∀ c, line.head? = some c → isspace c = false) ∧
    (∀ c, line.getLast? = some c → isspace c = false) := by
  obtain ⟨q, k, hk, hne, rfl⟩ := driver_mem target text line h
  exact ⟨escape_ne_nil _ hne, escape_head _ (trimmedChunk_head q k),
    escape_getLast _ (fun d hd => trimmedChunk_getLast q k d hk hd)⟩

/-- C10 on the text `  "a" b  <LF> <FF> c` with target 4: the whitespace-only candidate
between the two lines is skipped. -/
theorem driver_lines_trimmed_witness :
    driver 4 [32, 32, 34, 97, 34, 32, 98, 32, 32, 10, 32, 12, 32, 99] =
      [[92, 34, 97, 92, 34], [98], [99]] ∧
    ([98] : CStr) ≠ [] :=
  ⟨by decide,
    (driver_lines_trimmed 4 [32, 32, 34, 97, 34, 32, 98, 32, 32, 10, 32, 12, 32, 99] [98]
      (by decide)).1⟩

/-! ## The driver loop: one iteration at a time -/

theorem driver_nil (target : Nat) : driver target [] = [] := rfl

/-- The lines of the driver from a cursor before the end of the text: the line of the
first iteration, if it writes one, then the lines from the next cursor. -/
theorem driver_cons (target : Nat) (p : CStr) (hp : p ≠ []) :
    driver target p =
      if trimmedChunk p (splitPoint target p) = [] then
        driver target (nextCursor p (splitPoint target p))
      else escape_special_chars (trimmedChunk p (splitPoint target p)) ::
        driver target (nextCursor p (splitPoint target p)) := by
  cases p with
  | nil => exact absurd rfl hp
  | cons c rest =>
    have hlt := nextCursor_length_lt (c :: rest) (splitPoint target (c :: rest)) hp
      (splitPoint_pos target _ hp)
    have e := driverLoop_fuel target rest.length
      (nextCursor (c :: rest) (splitPoint target (c :: rest))).length
      (nextCursor (c :: rest) (splitPoint target (c :: rest)))
      (by simp only [List.length_cons] at hlt; omega) le_rfl
    simp only [driver, strlen, List.length_cons, driverLoop, e]

theorem finalCursor_nil (target : Nat) (fuel : Nat) (p : CStr) (h : p.length ≤ fuel) :
    finalCursor target fuel p = [] := by
  induction fuel generalizing p with
  | zero =>
    have hp : p = [] := List.length_eq_zero.mp (by omega)
    subst hp; rfl
  | succ n ih =>
    cases p with
    | nil => rfl
    | cons c rest =>
      have hlt := nextCursor_length_lt (c :: rest) (splitPoint target (c :: rest))
        (List.cons_ne_nil c rest) (splitPoint_pos target _ (List.cons_ne_nil c rest))
      simp only [finalCursor]
      exact ih _ (by omega)

/-- Advancing over a whitespace byte does not change where the whitespace skip ends. -/
theorem skipSpaces_drop_succ (p : CStr) (n : Nat) (h : isspace (charAt p n) = true) :
    skipSpaces (p.drop n) = skipSpaces (p.drop (n + 1)) := by
  by_cases hn : n < p.length
  · have hc : charAt p n = p[n] := by simp [charAt, List.getElem?_eq_getElem hn]
    rw [hc] at h
    rw [List.drop_eq_getElem_cons hn]
    simp [skipSpaces, h]
  · rw [List.drop_of_length_le (by omega), List.drop_of_length_le (by omega)]

/-- The cursor after an iteration is the one reached from the untrimmed split. -/
theorem nextCursor_eq_untrimmed (p : CStr) (split : Nat) :
    nextCursor p split = skipSpaces (p.drop split) := by
  unfold nextCursor
  induction split with
  | zero => rfl
  | succ n ih =>
    unfold trimTrailing
    split_ifs with hs
    · rw [ih, skipSpaces_drop_succ p n hs]
    · rfl

theorem find_split_point_pos (text : CStr) (target : Nat) (ht : 1 ≤ target)
    (h : 0 < strlen text) : 1 ≤ find_split_point text target := by
  by_cases hlen : strlen text ≤ target
  · simp only [find_split_point, hlen, if_true]
    exact h
  · have hup := scanUpper_ge text (strlen text) target
    simp only [find_split_point, hlen, if_false]
    split_ifs with hc hd <;> omega

/-! ## The claims on the cursor and the split -/

/-- C16: for a target of at least 1, the cursor the program reaches by advancing by the
trimmed split and skipping whitespace is the cursor reached by advancing by the value
`find_split_point` returned and skipping whitespace. -/
theorem cursor_advance_pre_trim (target : Nat) (p : CStr) (ht : 1 ≤ target) :
    nextCursor p (splitPoint target p) = specNextCursor target p := by
  rw [nextCursor_eq_untrimmed]
  unfold specNextCursor
  cases p with
  | nil => simp [skipSpaces]
  | cons c rest =>
    have hpos := find_split_point_pos (c :: rest) target ht (by simp [strlen])
    have hs : splitPoint target (c :: rest) = find_split_point (c :: rest) target := by
      unfold splitPoint
      simp only
      rw [if_neg (by omega)]
    rw [hs]

/-- C16 on the text `ab  cd` with target 3: `find_split_point` returns 3, the split is
trimmed to 2, and both ways of advancing reach `cd`. -/
theorem cursor_advance_pre_trim_witness :
    1 ≤ 3 ∧ find_split_point [97, 98, 32, 32, 99, 100] 3 = 3 ∧
    trimTrailing [97, 98, 32, 32, 99, 100] 3 = 2 ∧
    specNextCursor 3 [97, 98, 32, 32, 99, 100] = [99, 100] ∧
    nextCursor [97, 98, 32, 32, 99, 100] (splitPoint 3 [97, 98, 32, 32, 99, 100]) =
      specNextCursor 3 [97, 98, 32, 32, 99, 100] :=
  ⟨by decide, by decide, by decide, by decide,
    cursor_advance_pre_trim 3 [97, 98, 32, 32, 99, 100] (by decide)⟩

/-- C17: for a target of at least 1 and a non-empty remaining text, `find_split_point`
returns a value between 1 and the length of the text, so the fallback of the driver leaves
the split as returned. -/
theorem fallback_unreachable (target : Nat) (p : CStr) (ht : 1 ≤ target) (hp : p ≠ []) :
    1 ≤ find_split_point p target ∧ find_split_point p target ≤ strlen p ∧
    ¬ (find_split_point p target ≤ 0) ∧
    splitPoint target p = find_split_point p target := by
  have hpos := find_split_point_pos p target ht (List.length_pos.mpr hp)
  refine ⟨hpos, find_split_point_le p target, by omega, ?_⟩
  unfold splitPoint
  simp only
  rw [if_neg (by omega)]

/-- C17 on the text ` ab cd` with the target 128 of the program. -/
theorem fallback_unreachable_witness :
    1 ≤ TARGET_LEN ∧ ([32, 97, 98, 32, 99, 100] : CStr) ≠ [] ∧
    splitPoint TARGET_LEN [32, 97, 98, 32, 99, 100] =
      find_split_point [32, 97, 98, 32, 99, 100] TARGET_LEN :=
  ⟨by decide, by decide,
    (fallback_unreachable TARGET_LEN [32, 97, 98, 32, 99, 100] (by decide) (by decide)).2.2.2⟩

/-- C20: for `1 ≤ target < len`, when the text holds a whitespace byte at an index in
`[1, target]`, `find_split_point` returns less than twice the target; so a result of twice
the target or more needs the indices 1 to `target` free of whitespace. -/
theorem find_split_point_lt_twice (text : CStr) (target : Nat)
    (_h1 : 1 ≤ target) (h2 : target < strlen text) :
    ((∃ i, 1 ≤ i ∧ i ≤ target ∧ isspace (charAt text i) = true) →
      find_split_point text target < 2 * target) ∧
    (2 * target ≤ find_split_point text target →
      ∀ i, 1 ≤ i → i ≤ target → isspace (charAt text i) = false) := by
  have key : (∃ i, 1 ≤ i ∧ i ≤ target ∧ isspace (charAt text i) = true) →
      find_split_point text target < 2 * target := by
    rintro ⟨i, hi1, hi2, hi3⟩
    have hlo := scanLower_le text target
    have hup := scanUpper_ge text (strlen text) target
    have hup2 := scanUpper_le text (strlen text) target (le_of_lt h2)
    have hlow : 1 ≤ scanLower text target := by
      by_contra hlt
      have := scanLower_skipped text target i (by omega) hi2
      rw [hi3] at this
      exact Bool.noConfusion this
    have hnot : ¬ strlen text ≤ target := by omega
    simp only [find_split_point, hnot, if_false]
    split_ifs with hc hd
    · omega
    · have : ¬ ((target : Int) - scanLower text target ≤
          (scanUpper text (strlen text) target : Int) - target) := fun h => hc ⟨h, hlow⟩
      omega
    · have : ¬ ((target : Int) - scanLower text target ≤
          (scanUpper text (strlen text) target : Int) - target) := fun h => hc ⟨h, hlow⟩
      omega
  refine ⟨key, ?_⟩
  intro hge i hi1 hi2
  by_contra hsp
  have := key ⟨i, hi1, hi2, by simpa using hsp⟩
  omega

/-- C20 on the text `a bcdefgh` with target 3: the space at index 1 keeps the result, 1,
below 6. -/
theorem find_split_point_lt_twice_witness :
    (1 ≤ 3 ∧ 3 < strlen [97, 32, 98, 99, 100, 101, 102, 103, 104]) ∧
    find_split_point [97, 32, 98, 99, 100, 101, 102, 103, 104] 3 = 1 ∧
    find_split_point [97, 32, 98, 99, 100, 101, 102, 103, 104] 3 < 2 * 3 :=
  ⟨by decide, by decide,
    (find_split_point_lt_twice [97, 32, 98, 99, 100, 101, 102, 103, 104] 3
      (by decide) (by decide)).1 ⟨1, by decide, by decide, by decide⟩⟩

/-! ## Whitespace deleted -/

theorem stripSpaces_append (a b : CStr) :
    stripSpaces (a ++ b) = stripSpaces a ++ stripSpaces b := by
  simp [stripSpaces]

theorem stripSpaces_skipSpaces (l : CStr) : stripSpaces (skipSpaces l) = stripSpaces l := by
  induction l with
  | nil => rfl
  | cons c rest ih =>
    unfold skipSpaces
    split_ifs with hc
    · rw [ih]; simp [stripSpaces, hc]
    · rfl

theorem stripSpaces_flatten (l : CStr) : stripSpaces (flatten l) = stripSpaces l := by
  induction l with
  | nil => rfl
  | cons c rest ih =>
    have hc := flattenChar_isspace c
    unfold stripSpaces at ih ⊢
    simp only [flatten, List.filter_cons, hc, ih]
    by_cases hs : isspace c = true
    · simp [hs]
    · have hne : ¬ (c = 10 ∨ c = 13 ∨ c = 9) := by
        intro h
        apply hs
        rcases h with h | h | h <;> subst h <;> decide
      simp [hs, hne]

theorem skipSpaces_eq_nil_iff (l : CStr) : skipSpaces l = [] ↔ stripSpaces l = [] := by
  induction l with
  | nil => simp [skipSpaces, stripSpaces]
  | cons c rest ih =>
    by_cases hc : isspace c = true
    · simp only [skipSpaces, hc, if_true, ih]
      simp [stripSpaces, hc]
    · simp [skipSpaces, stripSpaces, hc]

/-- An iteration keeps the non-whitespace bytes of the text: those of `start`, then those
of the next cursor. -/
theorem stripSpaces_step (p : CStr) (split : Nat) :
    stripSpaces p =
      stripSpaces (trimmedChunk p split) ++ stripSpaces (nextCursor p split) := by
  unfold trimmedChunk nextCursor
  rw [stripSpaces_skipSpaces, stripSpaces_skipSpaces, stripSpaces_flatten,
    ← stripSpaces_append, List.take_append_drop]

theorem trimmedChunk_eq_nil_iff (p : CStr) (split : Nat) :
    trimmedChunk p split = [] ↔ stripSpaces (trimmedChunk p split) = [] := by
  unfold trimmedChunk
  rw [skipSpaces_eq_nil_iff, stripSpaces_skipSpaces]

theorem nextCursor_eq_nil_iff (p : CStr) (split : Nat) :
    nextCursor p split = [] ↔ stripSpaces (nextCursor p split) = [] := by
  unfold nextCursor
  rw [skipSpaces_eq_nil_iff, stripSpaces_skipSpaces]

theorem stripSpaces_eq_nil_iff (l : CStr) :
    stripSpaces l = [] ↔ ∀ c ∈ l, isspace c = true := by
  simp [stripSpaces, List.filter_eq_nil_iff]

theorem stripSpaces_eq_self_iff (l : CStr) :
    stripSpaces l = l ↔ ∀ c ∈ l, isspace c = false := by
  simp [stripSpaces, List.filter_eq_self]

/-- The non-whitespace bytes of the unescaped lines, from any cursor, are those of the
remaining text. -/
theorem driver_stripSpaces (target : Nat) (n : Nat) (p : CStr) (h : p.length ≤ n) :
    stripSpaces ((driver target p).map unescape).flatten = stripSpaces p := by
  induction n generalizing p with
  | zero =>
    have hp : p = [] := List.length_eq_zero.mp (by omega)
    subst hp; rfl
  | succ n ih =>
    by_cases hp : p = []
    · subst hp; rfl
    · have hlt := nextCursor_length_lt p (splitPoint target p) hp (splitPoint_pos target p hp)
      have hrec := ih (nextCursor p (splitPoint target p)) (by omega)
      have hstep := stripSpaces_step p (splitPoint target p)
      rw [driver_cons target p hp]
      split_ifs with he
      · rw [hrec, hstep, he]
        rfl
      · rw [List.map_cons, List.flatten_cons, stripSpaces_append, hrec, unescape_escape,
          ← hstep]

/-! ## Texts without whitespace, and last iterations -/

theorem charAt_nonspace (text : CStr) (h : ∀ c ∈ text, isspace c = false) (i : Nat) :
    isspace (charAt text i) = false := by
  unfold charAt
  rw [List.getD_eq_getElem?_getD]
  cases hi : text[i]? with
  | none => rfl
  | some c => exact h c (List.getElem?_mem hi)

theorem scanLower_word (text : CStr) (h : ∀ i, isspace (charAt text i) = false) (t : Nat) :
    scanLower text t = 0 := by
  induction t with
  | zero => rfl
  | succ n ih => simp [scanLower, h (n + 1), ih]

theorem scanUpper_word (text : CStr) (h : ∀ i, isspace (charAt text i) = false) (t : Nat)
    (ht : t ≤ strlen text) : scanUpper text (strlen text) t = strlen text := by
  have hle := scanUpper_le text (strlen text) t ht
  rcases Nat.eq_or_lt_of_le hle with he | hlt
  · exact he
  · have := scanUpper_space text (strlen text) t hlt
    rw [h] at this
    exact Bool.noConfusion this

theorem scanLower_at_space (text : CStr) (t : Nat) (h : isspace (charAt text t) = true) :
    scanLower text t = t := by
  cases t with
  | zero => rfl
  | succ n => simp [scanLower, h]

/-- On a text without whitespace `find_split_point` returns the length, for any target. -/
theorem find_split_point_word (text : CStr) (target : Nat)
    (h : ∀ c ∈ text, isspace c = false) : find_split_point text target = strlen text := by
  by_cases hlen : strlen text ≤ target
  · simp [find_split_point, hlen]
  · have hlo := scanLower_word text (charAt_nonspace text h) target
    have hup := scanUpper_word text (charAt_nonspace text h) target (by omega)
    simp only [find_split_point, hlen, if_false, hlo, hup]
    simp

/-- The pre-escape steps leave a string without whitespace unchanged. -/
theorem preEscape_word (w : CStr) (h : ∀ c ∈ w, isspace c = false) : preEscape w = w := by
  unfold preEscape trimmedChunk
  rw [trimTrailing_id w (fun c hc => h c (List.mem_of_getLast?_eq_some hc))]
  unfold strlen
  rw [List.take_length, flatten_id w, skipSpaces_id w]
  · intro c hc
    exact h c (List.mem_of_mem_head? hc)
  · intro c hc
    have hs := h c hc
    refine ⟨?_, ?_, ?_⟩ <;> intro e <;> subst e <;> exact Bool.noConfusion hs

/-- An iteration whose split is the whole remaining text is the last one; it writes the
escaped result of the pre-escape steps, unless that is empty. -/
theorem driver_last (target : Nat) (p : CStr) (hp : p ≠ [])
    (hs : splitPoint target p = strlen p) :
    driver target p =
      if preEscape p = [] then [] else [escape_special_chars (preEscape p)] := by
  have hnext : nextCursor p (strlen p) = [] := by
    rw [nextCursor_eq_untrimmed]
    unfold strlen
    rw [List.drop_length]
    rfl
  rw [driver_cons target p hp, hs, hnext, driver_nil]
  rfl

theorem splitPoint_of_eq_len (target : Nat) (p : CStr)
    (h : find_split_point p target = strlen p) : splitPoint target p = strlen p := by
  unfold splitPoint
  simp only
  split_ifs
  · rfl
  · exact h

/-- From a cursor at a non-empty text without whitespace the driver writes one line, the
escaped text. -/
theorem driver_word (target : Nat) (w : CStr) (hw : w ≠ [])
    (h : ∀ c ∈ w, isspace c = false) : driver target w = [escape_special_chars w] := by
  rw [driver_last target w hw (splitPoint_of_eq_len target w (find_split_point_word w target h)),
    preEscape_word w h, if_neg hw]

/-! ## The end-to-end claims -/

/-- C12: for a text no longer than the target that holds a non-whitespace byte, the driver
writes exactly one line, the escaped result of the pre-escape steps on the whole text; with
the target 128 the text `He said "hi"<LF>to me.` gives `He said \"hi\" to me.` and the
text `C:\path` gives `C:\\path`. -/
theorem driver_short (target : Nat) (text : CStr) (hlen : strlen text ≤ target)
    (hc : ∃ c ∈ text, isspace c = false) :
    driver target text = [escape_special_chars (preEscape text)] ∧
    driver TARGET_LEN [72, 101, 32, 115, 97, 105, 100, 32, 34, 104, 105, 34, 10, 116, 111,
        32, 109, 101, 46] =
      [[72, 101, 32, 115, 97, 105, 100, 32, 92, 34, 104, 105, 92, 34, 32, 116, 111, 32, 109,
        101, 46]] ∧
    driver TARGET_LEN [67, 58, 92, 112, 97, 116, 104] = [[67, 58, 92, 92, 112, 97, 116, 104]] := by
  refine ⟨?_, by decide, by decide⟩
  obtain ⟨c, hmem, hsp⟩ := hc
  have hp : text ≠ [] := List.ne_nil_of_mem hmem
  have hfsp : find_split_point text target = strlen text := by simp [find_split_point, hlen]
  have hne : preEscape text ≠ [] := by
    intro he
    have hstep := stripSpaces_step text (strlen text)
    have hnext : nextCursor text (strlen text) = [] := by
      rw [nextCursor_eq_untrimmed]
      unfold strlen
      rw [List.drop_length]
      rfl
    have he2 : trimmedChunk text (strlen text) = [] := he
    rw [he2, hnext] at hstep
    have hall := (stripSpaces_eq_nil_iff text).mp hstep c hmem
    rw [hsp] at hall
    exact Bool.noConfusion hall
  rw [driver_last target text hp (splitPoint_of_eq_len target text hfsp), if_neg hne]

/-- C12 on the text `He said "hi"<LF>to me.` with the target 128 of the program. -/
theorem driver_short_witness :
    strlen [72, 101, 32, 115, 97, 105, 100, 32, 34, 104, 105, 34, 10, 116, 111, 32, 109, 101,
      46] ≤ TARGET_LEN ∧
    driver TARGET_LEN [72, 101, 32, 115, 97, 105, 100, 32, 34, 104, 105, 34, 10, 116, 111,
        32, 109, 101, 46] =
      [escape_special_chars (preEscape [72, 101, 32, 115, 97, 105, 100, 32, 34, 104, 105, 34,
        10, 116, 111, 32, 109, 101, 46])] :=
  ⟨by decide,
    (driver_short TARGET_LEN [72, 101, 32, 115, 97, 105, 100, 32, 34, 104, 105, 34, 10, 116,
      111, 32, 109, 101, 46] (by decide) ⟨72, by decide, by decide⟩).1⟩

theorem trimTrailing_take (p : CStr) (split : Nat) :
    trimTrailing p split = trimTrailing (p.take split) split := by
  apply trimTrailing_congr
  intro i hi
  simp [charAt, List.getElem?_take_of_lt hi]

theorem trimTrailing_word (w : CStr) (h : ∀ c ∈ w, isspace c = false) :
    trimTrailing w (strlen w) = strlen w :=
  trimTrailing_id w (fun c hc => h c (List.mem_of_getLast?_eq_some hc))

/-- On a word as long as the target, a space and a second word, `find_split_point`
returns the offset of the space. -/
theorem two_words_find_split_point (target : Nat) (w1 w2 : CStr) (ht : 1 ≤ target)
    (hlen : w1.length = target) :
    find_split_point (w1 ++ 32 :: w2) target = target ∧
    charAt (w1 ++ 32 :: w2) target = 32 := by
  have hchar : charAt (w1 ++ 32 :: w2) target = 32 := by
    unfold charAt
    rw [List.getD_append_right _ _ _ _ (by omega), ← hlen, Nat.sub_self]
    rfl
  have hlo : scanLower (w1 ++ 32 :: w2) target = target :=
    scanLower_at_space _ target (by rw [hchar]; rfl)
  have hup := scanUpper_ge (w1 ++ 32 :: w2) (strlen (w1 ++ 32 :: w2)) target
  have hlong : ¬ strlen (w1 ++ 32 :: w2) ≤ target := by
    simp only [strlen, List.length_append, List.length_cons]; omega
  refine ⟨?_, hchar⟩
  simp only [find_split_point, hlong, if_false, hlo]
  rw [if_pos ⟨by omega, by omega⟩]

theorem two_words_splitPoint (target : Nat) (w1 w2 : CStr) (ht : 1 ≤ target)
    (hlen : w1.length = target) : splitPoint target (w1 ++ 32 :: w2) = target := by
  unfold splitPoint
  simp only
  rw [(two_words_find_split_point target w1 w2 ht hlen).1, if_neg (by omega)]

theorem two_words_trimTrailing (target : Nat) (w1 w2 : CStr) (hlen : w1.length = target)
    (h1 : ∀ c ∈ w1, isspace c = false) :
    trimTrailing (w1 ++ 32 :: w2) target = target := by
  have h := trimTrailing_word w1 h1
  unfold strlen at h
  rw [hlen] at h
  rw [trimTrailing_take, List.take_left' hlen, h]

theorem two_words_start (target : Nat) (w1 w2 : CStr) (hlen : w1.length = target)
    (h1 : ∀ c ∈ w1, isspace c = false) : trimmedChunk (w1 ++ 32 :: w2) target = w1 := by
  rw [trimmedChunk_eq_preEscape _ _ (by simp only [strlen, List.length_append]; omega),
    List.take_left' hlen, preEscape_word w1 h1]

theorem two_words_next (target : Nat) (w1 w2 : CStr) (hlen : w1.length = target)
    (h2 : ∀ c ∈ w2, isspace c = false) : nextCursor (w1 ++ 32 :: w2) target = w2 := by
  rw [nextCursor_eq_untrimmed, List.drop_left' hlen]
  have h32 : isspace 32 = true := rfl
  simp only [skipSpaces, h32, if_true]
  exact skipSpaces_id w2 (fun c hc => h2 c (List.mem_of_mem_head? hc))

/-- The loop without buffer capacity, on a word as long as the target, a space and a
second word: two lines, the escaped words. -/
theorem driver_two_words (target : Nat) (w1 w2 : CStr) (ht : 1 ≤ target)
    (hlen : w1.length = target) (h1 : ∀ c ∈ w1, isspace c = false)
    (h2 : ∀ c ∈ w2, isspace c = false) (hne : w2 ≠ []) :
    driver target (w1 ++ 32 :: w2) = [escape_special_chars w1, escape_special_chars w2] := by
  have hw1 : w1 ≠ [] := by
    intro e; rw [e] at hlen; simp at hlen; omega
  rw [driver_cons target _ (by simp), two_words_splitPoint target w1 w2 ht hlen,
    two_words_start target w1 w2 hlen h1, two_words_next target w1 w2 hlen h2, if_neg hw1,
    driver_word target w2 hne h2]

/-- C14: on a text made of whitespace only, of any length, and on the empty text, the
driver writes no line, and the loop reaches the end of the text. -/
theorem driver_whitespace_only (target : Nat) (text : CStr)
    (h : ∀ c ∈ text, isspace c = true) :
    driver target text = [] ∧ finalCursor target (strlen text) text = [] := by
  refine ⟨?_, finalCursor_nil target _ text le_rfl⟩
  by_cases hp : text = []
  · subst hp; rfl
  · have hstrip := (stripSpaces_eq_nil_iff text).mpr h
    have hstep := stripSpaces_step text (splitPoint target text)
    rw [hstrip] at hstep
    have hboth := List.append_eq_nil.mp hstep.symm
    have hstart := (trimmedChunk_eq_nil_iff text (splitPoint target text)).mpr hboth.1
    have hnext := (nextCursor_eq_nil_iff text (splitPoint target text)).mpr hboth.2
    rw [driver_cons target text hp, if_pos hstart, hnext, driver_nil]

/-- C14 on a text of five whitespace bytes with target 2, and on the empty text. -/
theorem driver_whitespace_only_witness :
    driver 2 [32, 9, 10, 32, 13] = [] ∧ driver 2 [] = [] :=
  ⟨(driver_whitespace_only 2 [32, 9, 10, 32, 13] (by decide)).1,
    (driver_whitespace_only 2 [] (by decide)).1⟩

/-- The loop without buffer capacity keeps the non-whitespace bytes of the text: the
unescaped lines, concatenated in order and with whitespace deleted, are the text with its
whitespace deleted. -/
theorem driver_content (target : Nat) (text : CStr) :
    stripSpaces ((driver target text).map unescape).flatten = stripSpaces text :=
  driver_stripSpaces target text.length text le_rfl

/-! ## The fixed buffers -/

/-- The escaped form is at most twice as long as its source: `escaped` holds the escaped
chunk whenever `temp` holds the trimmed one. -/
theorem escape_length_le_twice (s : CStr) : (escape_special_chars s).length ≤ 2 * s.length := by
  have h1 := escape_length s
  have h2 : s.countP isSpecial ≤ s.length := List.countP_le_length isSpecial
  omega

/-- C18 fails on the program: on a text of 1024 double quotes, with the target 128, the
first iteration has the trimmed split 1024, one more than the 1023 bytes `temp` can hold
before its terminator, and the escaped chunk has 2048 bytes, one more than the 2047 that
`escaped` can hold before its terminator. -/
theorem buffers_overflow_on_quotes :
    trimTrailing (List.replicate 1024 34) (splitPoint TARGET_LEN (List.replicate 1024 34)) =
      TEMP_SIZE ∧
    ¬ (trimTrailing (List.replicate 1024 34)
        (splitPoint TARGET_LEN (List.replicate 1024 34)) ≤ 1023) ∧
    (escape_special_chars (trimmedChunk (List.replicate 1024 34)
        (splitPoint TARGET_LEN (List.replicate 1024 34)))).length = ESCAPED_SIZE ∧
    ¬ ((escape_special_chars (trimmedChunk (List.replicate 1024 34)
        (splitPoint TARGET_LEN (List.replicate 1024 34)))).length ≤ 2047) := by
  have hq : ∀ c ∈ List.replicate 1024 34, isspace c = false := by
    intro c hc
    rw [List.eq_of_mem_replicate hc]
    rfl
  have hlen : strlen (List.replicate 1024 34) = 1024 := List.length_replicate 1024 34
  have hsplit : splitPoint TARGET_LEN (List.replicate 1024 34) = 1024 := by
    rw [splitPoint_of_eq_len _ _ (find_split_point_word _ TARGET_LEN hq), hlen]
  have htrim : trimTrailing (List.replicate 1024 34) 1024 = 1024 := by
    have := trimTrailing_id (List.replicate 1024 34)
      (fun c hc => hq c (List.mem_of_getLast?_eq_some hc))
    rw [hlen] at this
    exact this
  have hstart : trimmedChunk (List.replicate 1024 34) 1024 = List.replicate 1024 34 := by
    have := preEscape_word (List.replicate 1024 34) hq
    unfold preEscape at this
    rw [hlen] at this
    exact this
  have hesc : (escape_special_chars (List.replicate 1024 34)).length = 2048 := by
    rw [escape_length, List.length_replicate, List.countP_replicate]
    rfl
  rw [hsplit, htrim, hstart, hesc]
  exact ⟨rfl, by omega, rfl, by omega⟩

/-! ## The driver loop with the capacity of its buffers -/

/-- Fuel beyond the length of the remaining text is never used by the checked loop. -/
theorem checkedLoop_fuel (target : Nat) (n m : Nat) (p : CStr) (hn : p.length ≤ n)
    (hm : p.length ≤ m) : checkedLoop target n p = checkedLoop target m p := by
  induction n generalizing m p with
  | zero =>
    have hp : p = [] := List.length_eq_zero.mp (by omega)
    subst hp
    cases m <;> rfl
  | succ n ih =>
    cases p with
    | nil => cases m <;> rfl
    | cons c rest =>
      cases m with
      | zero => simp at hm
      | succ m =>
        have hlt := nextCursor_length_lt (c :: rest) (splitPoint target (c :: rest))
          (List.cons_ne_nil c rest) (splitPoint_pos target _ (List.cons_ne_nil c rest))
        have e := ih m (nextCursor (c :: rest) (splitPoint target (c :: rest)))
          (by omega) (by omega)
        simp only [checkedLoop, e]

theorem checkedDriver_nil (target : Nat) : checkedDriver target [] = some [] := rfl

/-- The checked run from a cursor before the end of the text, one iteration unfolded. -/
theorem checkedDriver_cons (target : Nat) (p : CStr) (hp : p ≠ []) :
    checkedDriver target p =
      if TEMP_SIZE ≤ trimTrailing p (splitPoint target p) then none
      else if trimmedChunk p (splitPoint target p) = [] then
        checkedDriver target (nextCursor p (splitPoint target p))
      else if ESCAPED_SIZE ≤
          (escape_special_chars (trimmedChunk p (splitPoint target p))).length then none
      else (checkedDriver target (nextCursor p (splitPoint target p))).map
        (fun lines => escape_special_chars (trimmedChunk p (splitPoint target p)) :: lines) := by
  cases p with
  | nil => exact absurd rfl hp
  | cons c rest =>
    have hlt := nextCursor_length_lt (c :: rest) (splitPoint target (c :: rest)) hp
      (splitPoint_pos target _ hp)
    have e := checkedLoop_fuel target rest.length
      (nextCursor (c :: rest) (splitPoint target (c :: rest))).length
      (nextCursor (c :: rest) (splitPoint target (c :: rest)))
      (by simp only [List.length_cons] at hlt; omega) le_rfl
    simp only [checkedDriver, strlen, List.length_cons, checkedLoop, e]

/-- The lines of a checked run that overruns no buffer are the lines of the loop without
capacity. -/
theorem checkedLoop_eq_some (target fuel : Nat) (p : CStr) (lines : List CStr)
    (h : checkedLoop target fuel p = some lines) : lines = driverLoop target fuel p := by
  induction fuel generalizing p lines with
  | zero =>
    simp only [checkedLoop, Option.some.injEq] at h
    rw [← h]; rfl
  | succ n ih =>
    cases p with
    | nil =>
      simp only [checkedLoop, Option.some.injEq] at h
      rw [← h]; rfl
    | cons c rest =>
      simp only [checkedLoop] at h
      simp only [driverLoop]
      split_ifs at h with h1 h2 h3
      · rw [if_pos h2]
        exact ih _ _ h
      · rw [if_neg h2]
        obtain ⟨ls, hls, hcons⟩ := Option.map_eq_some'.mp h
        rw [← hcons, ih _ _ hls]

theorem checkedDriver_eq_some (target : Nat) (text : CStr) (lines : List CStr)
    (h : checkedDriver target text = some lines) : lines = driver target text :=
  checkedLoop_eq_some target _ text lines h

theorem flatten_length (l : CStr) : (flatten l).length = l.length := by
  rw [flatten_eq_map, List.length_map]

theorem trimmedChunk_length_le (p : CStr) (split : Nat) :
    (trimmedChunk p split).length ≤ trimTrailing p split := by
  unfold trimmedChunk
  have h1 := skipSpaces_length_le (flatten (p.take (trimTrailing p split)))
  rw [flatten_length, List.length_take] at h1
  omega

/-- On a text shorter than `temp` no iteration overruns a buffer: the checked run gives
the lines of the loop without capacity. -/
theorem checkedLoop_of_short (target fuel : Nat) (p : CStr) (h : p.length < TEMP_SIZE) :
    checkedLoop target fuel p = some (driverLoop target fuel p) := by
  induction fuel generalizing p with
  | zero => rfl
  | succ n ih =>
    cases p with
    | nil => rfl
    | cons c rest =>
      have hsplit := splitPoint_le target (c :: rest)
      have htrim := trimTrailing_le (c :: rest) (splitPoint target (c :: rest))
      have hstart := trimmedChunk_length_le (c :: rest) (splitPoint target (c :: rest))
      have hesc := escape_length_le_twice (trimmedChunk (c :: rest) (splitPoint target (c :: rest)))
      have hlt := nextCursor_length_lt (c :: rest) (splitPoint target (c :: rest))
        (List.cons_ne_nil c rest) (splitPoint_pos target _ (List.cons_ne_nil c rest))
      have hrec := ih (nextCursor (c :: rest) (splitPoint target (c :: rest))) (by omega)
      unfold strlen at hsplit
      unfold TEMP_SIZE at h
      have h1 : ¬ TEMP_SIZE ≤ trimTrailing (c :: rest) (splitPoint target (c :: rest)) := by
        unfold TEMP_SIZE; omega
      have h3 : ¬ ESCAPED_SIZE ≤
          (escape_special_chars (trimmedChunk (c :: rest) (splitPoint target (c :: rest)))).length := by
        unfold ESCAPED_SIZE; omega
      simp only [checkedLoop, driverLoop, h1, h3, if_false, hrec]
      split_ifs <;> rfl

theorem checkedDriver_of_short (target : Nat) (text : CStr) (h : strlen text < TEMP_SIZE) :
    checkedDriver target text = some (driver target text) :=
  checkedLoop_of_short target _ text h

/-- A text without whitespace that is as long as `temp` or longer overruns `temp` in the
first iteration, for every target. -/
theorem checkedDriver_word_overrun (target : Nat) (w : CStr)
    (h : ∀ c ∈ w, isspace c = false) (hlen : TEMP_SIZE ≤ strlen w) :
    checkedDriver target w = none := by
  have hw : w ≠ [] := by
    intro e; rw [e] at hlen; simp [strlen, TEMP_SIZE] at hlen
  have hs := splitPoint_of_eq_len target w (find_split_point_word w target h)
  rw [checkedDriver_cons target w hw, hs, trimTrailing_word w h, if_pos hlen]

/-- A word as long as the target, a space and a second word as long as `temp` or longer:
the first iteration fits and the second overruns `temp`. -/
theorem checkedDriver_two_words_overrun (target : Nat) (w1 w2 : CStr) (ht : 1 ≤ target)
    (hlen : w1.length = target) (h1 : ∀ c ∈ w1, isspace c = false)
    (h2 : ∀ c ∈ w2, isspace c = false) (hfit : target < TEMP_SIZE)
    (hbig : TEMP_SIZE ≤ strlen w2) :
    checkedDriver target (w1 ++ 32 :: w2) = none := by
  have hw1 : w1 ≠ [] := by
    intro e; rw [e] at hlen; simp at hlen; omega
  have hesc := escape_length_le_twice w1
  have hE : ¬ ESCAPED_SIZE ≤ (escape_special_chars w1).length := by
    unfold ESCAPED_SIZE; unfold TEMP_SIZE at hfit; omega
  rw [checkedDriver_cons target _ (by simp), two_words_splitPoint target w1 w2 ht hlen,
    two_words_trimTrailing target w1 w2 hlen h1, two_words_start target w1 w2 hlen h1,
    two_words_next target w1 w2 hlen h2, if_neg (by omega), if_neg hw1, if_neg hE,
    checkedDriver_word_overrun target w2 h2 hbig]
  rfl

/-- Below the capacity of `temp` a non-empty text without whitespace is written as one
line, its escaped form. -/
theorem checkedDriver_word (target : Nat) (w : CStr) (hw : w ≠ [])
    (h : ∀ c ∈ w, isspace c = false) (hlen : strlen w < TEMP_SIZE) :
    checkedDriver target w = some [escape_special_chars w] := by
  rw [checkedDriver_of_short target w hlen, driver_word target w hw h]

/-- Below the capacity of `temp` a word as long as the target, a space and a second word
are written as two lines, the escaped words. -/
theorem checkedDriver_two_words (target : Nat) (w1 w2 : CStr) (ht : 1 ≤ target)
    (hlen : w1.length = target) (h1 : ∀ c ∈ w1, isspace c = false)
    (h2 : ∀ c ∈ w2, isspace c = false) (hne : w2 ≠ [])
    (hfit : strlen (w1 ++ 32 :: w2) < TEMP_SIZE) :
    checkedDriver target (w1 ++ 32 :: w2) =
      some [escape_special_chars w1, escape_special_chars w2] := by
  rw [checkedDriver_of_short target _ hfit, driver_two_words target w1 w2 ht hlen h1 h2 hne]

/-- A checked run that overruns no buffer keeps the non-whitespace bytes of the text. -/
theorem checkedDriver_content (target : Nat) (text : CStr) (lines : List CStr)
    (h : checkedDriver target text = some lines) :
    stripSpaces (lines.map unescape).flatten = stripSpaces text := by
  rw [checkedDriver_eq_some target text lines h]
  exact driver_content target text

/-- The checked run on the text `hello world` with target 5 writes `hello` and `world`. -/
theorem checkedDriver_hello_world :
    checkedDriver 5 [104, 101, 108, 108, 111, 32, 119, 111, 114, 108, 100] =
      some [[104, 101, 108, 108, 111], [119, 111, 114, 108, 100]] := by
  decide

theorem replicate_nonspace (n c : Nat) (hc : isspace c = false) :
    ∀ d ∈ List.replicate n c, isspace d = false := by
  intro d hd
  rw [List.eq_of_mem_replicate hd]
  exact hc

/-! ## The end-to-end claims that meet the capacity of `temp` -/

/-- C13 fails on the program: with the target 128, on 128 bytes `a`, a space and 1500
bytes `b`, `find_split_point` returns 128, the offset of the space, and the cursor moves to
the second word; there the trimmed split is 1500, the copy overruns `temp`, and the run
does not write the two escaped words. -/
theorem two_words_overrun_temp :
    find_split_point (List.replicate 128 97 ++ 32 :: List.replicate 1500 98) TARGET_LEN
      = 128 ∧
    nextCursor (List.replicate 128 97 ++ 32 :: List.replicate 1500 98)
        (splitPoint TARGET_LEN (List.replicate 128 97 ++ 32 :: List.replicate 1500 98))
      = List.replicate 1500 98 ∧
    trimTrailing (List.replicate 1500 98) (splitPoint TARGET_LEN (List.replicate 1500 98))
      = 1500 ∧
    checkedDriver TARGET_LEN (List.replicate 128 97 ++ 32 :: List.replicate 1500 98)
      = none ∧
    checkedDriver TARGET_LEN (List.replicate 128 97 ++ 32 :: List.replicate 1500 98) ≠
      some [escape_special_chars (List.replicate 128 97),
        escape_special_chars (List.replicate 1500 98)] := by
  have ha := replicate_nonspace 128 97 rfl
  have hb := replicate_nonspace 1500 98 rfl
  have hla : (List.replicate 128 97).length = TARGET_LEN := List.length_replicate 128 97
  have hlb : strlen (List.replicate 1500 98) = 1500 := List.length_replicate 1500 98
  have hnone := checkedDriver_two_words_overrun TARGET_LEN (List.replicate 128 97)
    (List.replicate 1500 98) (by decide) hla ha hb (by decide)
    (by rw [hlb]; decide)
  have hsb := splitPoint_of_eq_len TARGET_LEN (List.replicate 1500 98)
    (find_split_point_word _ TARGET_LEN hb)
  refine ⟨(two_words_find_split_point TARGET_LEN _ _ (by decide) hla).1, ?_, ?_, hnone, ?_⟩
  · rw [two_words_splitPoint TARGET_LEN _ _ (by decide) hla]
    exact two_words_next TARGET_LEN _ _ hla hb
  · rw [hsb, trimTrailing_word _ hb, hlb]
  · rw [hnone]
    exact Option.noConfusion

/-- C15 fails on the program: with the target 128, on 2000 bytes `a`, `find_split_point`
returns the length 2000, as the claim says, and the trimmed split stays 2000; the copy
overruns `temp`, and the run does not write the escaped text. -/
theorem long_word_overruns_temp :
    find_split_point (List.replicate 2000 97) TARGET_LEN = 2000 ∧
    trimTrailing (List.replicate 2000 97) (splitPoint TARGET_LEN (List.replicate 2000 97))
      = 2000 ∧
    checkedDriver TARGET_LEN (List.replicate 2000 97) = none ∧
    checkedDriver TARGET_LEN (List.replicate 2000 97) ≠
      some [escape_special_chars (List.replicate 2000 97)] := by
  have ha := replicate_nonspace 2000 97 rfl
  have hl : strlen (List.replicate 2000 97) = 2000 := List.length_replicate 2000 97
  have hfsp := find_split_point_word (List.replicate 2000 97) TARGET_LEN ha
  have hs := splitPoint_of_eq_len TARGET_LEN (List.replicate 2000 97) hfsp
  have hnone := checkedDriver_word_overrun TARGET_LEN (List.replicate 2000 97) ha
    (by rw [hl]; decide)
  refine ⟨by rw [hfsp, hl], by rw [hs, trimTrailing_word _ ha, hl], hnone, ?_⟩
  rw [hnone]
  exact Option.noConfusion

/-- C19 fails on the program: with the target 128, the text of 2000 bytes `a` has all its
bytes left when whitespace is deleted, but the run overruns `temp` in its first iteration
and yields no lines that hold them. -/
theorem content_lost_on_overrun :
    stripSpaces (List.replicate 2000 97) = List.replicate 2000 97 ∧
    checkedDriver TARGET_LEN (List.replicate 2000 97) = none ∧
    ¬ ∃ lines, checkedDriver TARGET_LEN (List.replicate 2000 97) = some lines ∧
        stripSpaces (lines.map unescape).flatten = stripSpaces (List.replicate 2000 97) := by
  have ha := replicate_nonspace 2000 97 rfl
  have hl : strlen (List.replicate 2000 97) = 2000 := List.length_replicate 2000 97
  have hnone := checkedDriver_word_overrun TARGET_LEN (List.replicate 2000 97) ha
    (by rw [hl]; decide)
  refine ⟨(stripSpaces_eq_self_iff _).mpr ha, hnone, ?_⟩
  rintro ⟨lines, h, _⟩
  rw [hnone] at h
  exact Option.noConfusion h

end Chunks
